import Mathlib

/-!
# Verification of the Splash `Log` facility

Shallow embedding of `log.h` (class `Splash::Log`) from the splash repository.
The singleton's member state is modelled by `LogState`; the two output sinks
(the console, i.e. `std::cout`, and the append-only log file) are modelled as
traces of the lines written to them, carried inside the state.  The wall-clock
timestamp produced by `strftime` and the success of opening the log file are
environment inputs, passed as explicit parameters `timeC` and `fileOk`.
-/

namespace Splash

/-- The `Log::Priority` enumeration, with the underlying C++ values
`DEBUGGING = 0, MESSAGE = 1, WARNING = 2, ERROR = 3, NONE = 4`. -/
inductive Priority where
  | DEBUGGING
  | MESSAGE
  | WARNING
  | ERROR
  | NONE
deriving DecidableEq

/-- The underlying integer value of a `Priority` enumerator. -/
def Priority.toIdx : Priority → Nat
  | .DEBUGGING => 0
  | .MESSAGE => 1
  | .WARNING => 2
  | .ERROR => 3
  | .NONE => 4

/-- The C++ comparison `p >= q` between two `Priority` values
(integer comparison of the enumerator values). -/
def Priority.pge (p q : Priority) : Bool := decide (q.toIdx ≤ p.toIdx)

/-- Member state of the `Log` singleton:
`_logs`, `_logToFile`, `_logLength`, `_logPointer`, `_verbosity`,
`_tempString`, `_tempPriority`; plus the two sinks as observation traces:
`console` is the sequence of messages handed to `toConsole` (which prints them
on `std::cout` after recoloring the tag), and `fileSink` is the sequence of
lines appended to `/var/log/splash.log`.
`_logLength` is an `int` member initialised to `500` and never assigned, hence
a `Nat`; `_logPointer` is a signed `int`, hence an `Int`. -/
structure LogState where
  logs : List (String × Priority)
  logToFile : Bool
  logLength : Nat
  logPointer : Int
  verbosity : Priority
  tempString : String
  tempPriority : Priority
  console : List String
  fileSink : List String
deriving DecidableEq

/-- The state of a freshly constructed `Log` (the in-class member
initialisers of `log.h`). -/
def initState : LogState :=
  { logs := []
    logToFile := false
    logLength := 500
    logPointer := 0
    verbosity := .MESSAGE
    tempString := ""
    tempPriority := .MESSAGE
    console := []
    fileSink := [] }

/-- The fixed-width bracketed tag computed in `Log::rec` (the local `type`
string: it stays default-constructed, i.e. empty, for `NONE`). -/
def tagOf : Priority → String
  | .MESSAGE => "[MESSAGE]"
  | .DEBUGGING => " [DEBUG] "
  | .WARNING => "[WARNING]"
  | .ERROR => " [ERROR] "
  | .NONE => ""

/-- The `timedMsg` string composed in `Log::rec`:
`<timestamp> / <tag> / <body>`.  `timeC` is the `strftime` output and `body`
is the concatenation (via `addToString`) of the string forms of the variadic
arguments. -/
def composeMsg (timeC : String) (p : Priority) (body : String) : String :=
  timeC ++ " / " ++ tagOf p ++ " / " ++ body

/-- Model of `Log::rec(p, args...)`, the common record algorithm.  In order:
compose `timedMsg`; if `_logToFile` is set, open the log file in append mode
and, if the open succeeded (`fileOk`), write the line; if `p >= _verbosity`,
hand the message to `toConsole`; `push_back` the entry on `_logs`; if the
size now exceeds `_logLength`, decrement `_logPointer` when positive and
erase the front entry. -/
def Log.rec (timeC : String) (fileOk : Bool) (p : Priority) (body : String)
    (s : LogState) : LogState :=
  let timedMsg := composeMsg timeC p body
  let newFile := if s.logToFile && fileOk then s.fileSink ++ [timedMsg] else s.fileSink
  let newConsole := if p.pge s.verbosity then s.console ++ [timedMsg] else s.console
  let logs := s.logs ++ [(timedMsg, p)]
  if logs.length > s.logLength then
    { s with fileSink := newFile, console := newConsole, logs := logs.tail,
             logPointer := if s.logPointer > 0 then s.logPointer - 1 else s.logPointer }
  else
    { s with fileSink := newFile, console := newConsole, logs := logs }

/-- Model of `Log::operator()(p, args...)`: takes the lock and calls `rec`. -/
def record (timeC : String) (fileOk : Bool) (p : Priority) (body : String)
    (s : LogState) : LogState :=
  Log.rec timeC fileOk p body s

/-- Model of `Log::operator<<(msg)` (both the generic overload and the `Value`
overload): appends the string form of the argument to `_tempString`. -/
def streamAdd (msg : String) (s : LogState) : LogState :=
  { s with tempString := s.tempString ++ msg }

/-- Model of `Log::operator<<(Priority)`: sets `_tempPriority`. -/
def streamSetPriority (p : Priority) (s : LogState) : LogState :=
  { s with tempPriority := p }

/-- Model of `Log::operator<<(Log::endl)`: if `_tempPriority >= _verbosity`, run
`rec(_tempPriority, _tempString)`; then clear `_tempString` and reset
`_tempPriority` to `MESSAGE`. -/
def streamFlush (timeC : String) (fileOk : Bool) (s : LogState) : LogState :=
  let s1 := if s.tempPriority.pge s.verbosity
            then Log.rec timeC fileOk s.tempPriority s.tempString s
            else s
  { s1 with tempString := "", tempPriority := .MESSAGE }

/-- Model of `Log::setLog(log, priority)`: `push_back` the pre-formatted entry; if the
size now exceeds `_logLength`, decrement `_logPointer` when positive and
`pop_front`. -/
def setLog (text : String) (p : Priority) (s : LogState) : LogState :=
  let logs := s.logs ++ [(text, p)]
  if logs.length > s.logLength then
    { s with logs := logs.tail,
             logPointer := if s.logPointer > 0 then s.logPointer - 1 else s.logPointer }
  else
    { s with logs := logs }

/-- Model of `Log::getFullLogs()`: returns a copy of `_logs`; no state change. -/
def getFullLogs (s : LogState) : List (String × Priority) × LogState :=
  (s.logs, s)

/-- Model of `Log::getLogs(args...)`: for each entry of `_logs` in order, for each
nominated priority in argument order, push the entry's text whenever its
priority equals that nominated priority; no state change. -/
def getLogs (prios : List Priority) (s : LogState) : List String × LogState :=
  (s.logs.flatMap (fun log => prios.flatMap (fun p => if log.2 = p then [log.1] else [])), s)

/-- Model of `Log::getNewLogs()`: the loop `for (int i = _logPointer; i < _logs.size(); ++i)`
copies the entries from index `_logPointer` to the end (when `_logPointer` is
negative the signed/unsigned comparison `i < _logs.size()` promotes `i` to a
huge unsigned value, so the loop body never runs and the result is empty);
then `_logPointer = _logs.size()`. -/
def getNewLogs (s : LogState) : List (String × Priority) × LogState :=
  (if 0 ≤ s.logPointer then s.logs.drop s.logPointer.toNat else [],
   { s with logPointer := (s.logs.length : Int) })

/-- Model of `Log::getVerbosity()`: returns `_verbosity`; no state change. -/
def getVerbosity (s : LogState) : Priority × LogState :=
  (s.verbosity, s)

/-- Model of `Log::setVerbosity(p)`: assigns `_verbosity`. -/
def setVerbosity (p : Priority) (s : LogState) : LogState :=
  { s with verbosity := p }

/-- Model of `Log::logToFile(activate)`: assigns `_logToFile`. -/
def logToFile (activate : Bool) (s : LogState) : LogState :=
  { s with logToFile := activate }

/-- One invocation of a public state-touching operation of the facility,
with its environment inputs (`timeC`, `fileOk`) where relevant. -/
inductive Op where
  | record (timeC : String) (fileOk : Bool) (p : Priority) (body : String)
  | streamAdd (msg : String)
  | streamSetPriority (p : Priority)
  | streamFlush (timeC : String) (fileOk : Bool)
  | setLog (text : String) (p : Priority)
  | getFullLogs
  | getLogs (prios : List Priority)
  | getNewLogs
  | getVerbosity
  | setVerbosity (p : Priority)
  | logToFile (activate : Bool)

/-- The state transformation performed by one public operation. -/
def step : Op → LogState → LogState
  | .record timeC fileOk p body, s => record timeC fileOk p body s
  | .streamAdd msg, s => streamAdd msg s
  | .streamSetPriority p, s => streamSetPriority p s
  | .streamFlush timeC fileOk, s => streamFlush timeC fileOk s
  | .setLog text p, s => setLog text p s
  | .getFullLogs, s => (getFullLogs s).2
  | .getLogs prios, s => (getLogs prios s).2
  | .getNewLogs, s => (getNewLogs s).2
  | .getVerbosity, s => (getVerbosity s).2
  | .setVerbosity p, s => setVerbosity p s
  | .logToFile activate, s => logToFile activate s

/-- Run a sequence of public operations from a given state. -/
def run (ops : List Op) (s : LogState) : LogState :=
  ops.foldl (fun t op => step op t) s

/-- The History entries a single operation inserts when run in state `s`:
`record` and `setLog` always insert one entry; the stream terminator inserts
one exactly when the pending priority passes the verbosity gate; every other
operation inserts nothing. -/
def insertedBy : Op → LogState → List (String × Priority)
  | .record timeC _ p body, _ => [(composeMsg timeC p body, p)]
  | .streamFlush timeC _, s =>
      if s.tempPriority.pge s.verbosity
      then [(composeMsg timeC s.tempPriority s.tempString, s.tempPriority)]
      else []
  | .setLog text p, _ => [(text, p)]
  | _, _ => []

/-- All History entries a sequence of operations inserts, in insertion
order. -/
def allInserted : List Op → LogState → List (String × Priority)
  | [], _ => []
  | op :: ops, s => insertedBy op s ++ allInserted ops (step op s)

/-- Run a sequence of plain insertions (`Log::setLog` calls). -/
def runInserts (es : List (String × Priority)) (s : LogState) : LogState :=
  es.foldl (fun t e => setLog e.1 e.2 t) s

/-! ### Characterisation lemmas for the History update -/

theorem rec_logs (timeC : String) (fileOk : Bool) (p : Priority) (body : String)
    (s : LogState) :
    (Log.rec timeC fileOk p body s).logs =
      if (s.logs ++ [(composeMsg timeC p body, p)]).length > s.logLength
      then (s.logs ++ [(composeMsg timeC p body, p)]).tail
      else s.logs ++ [(composeMsg timeC p body, p)] := by
  simp only [Log.rec]
  split <;> rfl

theorem rec_logPointer (timeC : String) (fileOk : Bool) (p : Priority) (body : String)
    (s : LogState) :
    (Log.rec timeC fileOk p body s).logPointer =
      if (s.logs ++ [(composeMsg timeC p body, p)]).length > s.logLength
      then (if s.logPointer > 0 then s.logPointer - 1 else s.logPointer)
      else s.logPointer := by
  simp only [Log.rec]
  split <;> rfl

theorem rec_console (timeC : String) (fileOk : Bool) (p : Priority) (body : String)
    (s : LogState) :
    (Log.rec timeC fileOk p body s).console =
      if p.pge s.verbosity then s.console ++ [composeMsg timeC p body] else s.console := by
  simp only [Log.rec]
  split <;> rfl

theorem rec_fileSink (timeC : String) (fileOk : Bool) (p : Priority) (body : String)
    (s : LogState) :
    (Log.rec timeC fileOk p body s).fileSink =
      if s.logToFile && fileOk then s.fileSink ++ [composeMsg timeC p body]
      else s.fileSink := by
  simp only [Log.rec]
  split <;> rfl

theorem rec_frame (timeC : String) (fileOk : Bool) (p : Priority) (body : String)
    (s : LogState) :
    (Log.rec timeC fileOk p body s).logLength = s.logLength ∧
    (Log.rec timeC fileOk p body s).logToFile = s.logToFile ∧
    (Log.rec timeC fileOk p body s).verbosity = s.verbosity ∧
    (Log.rec timeC fileOk p body s).tempString = s.tempString ∧
    (Log.rec timeC fileOk p body s).tempPriority = s.tempPriority := by
  simp only [Log.rec]
  split <;> exact ⟨rfl, rfl, rfl, rfl, rfl⟩

theorem setLog_logs (text : String) (p : Priority) (s : LogState) :
    (setLog text p s).logs =
      if (s.logs ++ [(text, p)]).length > s.logLength
      then (s.logs ++ [(text, p)]).tail
      else s.logs ++ [(text, p)] := by
  simp only [setLog]
  split <;> rfl

theorem setLog_logPointer (text : String) (p : Priority) (s : LogState) :
    (setLog text p s).logPointer =
      if (s.logs ++ [(text, p)]).length > s.logLength
      then (if s.logPointer > 0 then s.logPointer - 1 else s.logPointer)
      else s.logPointer := by
  simp only [setLog]
  split <;> rfl

theorem setLog_frame (text : String) (p : Priority) (s : LogState) :
    (setLog text p s).logLength = s.logLength ∧
    (setLog text p s).logToFile = s.logToFile ∧
    (setLog text p s).verbosity = s.verbosity ∧
    (setLog text p s).tempString = s.tempString ∧
    (setLog text p s).tempPriority = s.tempPriority := by
  simp only [setLog]
  split <;> exact ⟨rfl, rfl, rfl, rfl, rfl⟩

/-- The bounded push (`push_back` followed by conditional eviction of the
front entry) keeps exactly the most recent entries: it equals dropping the
overflow from the front of the appended list. -/
theorem boundedAppend_drop {α : Type} (L : List α) (e : α) (cap : Nat)
    (h : L.length ≤ cap) :
    (if (L ++ [e]).length > cap then (L ++ [e]).tail else L ++ [e]) =
      (L ++ [e]).drop (L.length + 1 - cap) := by
  have hlen : (L ++ [e]).length = L.length + 1 := by simp
  split
  · next hgt =>
      rw [hlen] at hgt
      have h1 : L.length + 1 - cap = 1 := by omega
      rw [h1, List.drop_one]
  · next hle =>
      rw [hlen] at hle
      have h0 : L.length + 1 - cap = 0 := by omega
      rw [h0, List.drop_zero]

/-- Dropping past an appended prefix. -/
theorem drop_append_ge {α : Type} (L M : List α) (n : Nat) (h : L.length ≤ n) :
    (L ++ M).drop n = M.drop (n - L.length) := by
  have hn : n = L.length + (n - L.length) := by omega
  rw [hn, ← List.drop_drop, List.drop_left]
  congr 1
  omega

theorem step_logLength (op : Op) (s : LogState) :
    (step op s).logLength = s.logLength := by
  cases op with
  | record timeC fileOk p body => exact (rec_frame timeC fileOk p body s).1
  | streamAdd msg => rfl
  | streamSetPriority p => rfl
  | streamFlush timeC fileOk =>
      simp only [step, streamFlush]
      split
      · exact (rec_frame timeC fileOk s.tempPriority s.tempString s).1
      · rfl
  | setLog text p => exact (setLog_frame text p s).1
  | getFullLogs => rfl
  | getLogs prios => rfl
  | getNewLogs => rfl
  | getVerbosity => rfl
  | setVerbosity p => rfl
  | logToFile activate => rfl

theorem step_logs (op : Op) (s : LogState) (h : s.logs.length ≤ s.logLength) :
    (step op s).logs = (s.logs ++ insertedBy op s).drop
      ((s.logs.length + (insertedBy op s).length) - s.logLength) := by
  have hnil : s.logs = (s.logs ++ ([] : List (String × Priority))).drop
      ((s.logs.length + ([] : List (String × Priority)).length) - s.logLength) := by
    simp [Nat.sub_eq_zero_of_le h]
  cases op with
  | record timeC fileOk p body =>
      show (Log.rec timeC fileOk p body s).logs = _
      rw [rec_logs, boundedAppend_drop s.logs _ s.logLength h]
      simp [insertedBy]
  | streamAdd msg => exact hnil
  | streamSetPriority p => exact hnil
  | streamFlush timeC fileOk =>
      simp only [step, streamFlush, insertedBy]
      by_cases hg : s.tempPriority.pge s.verbosity = true
      · rw [if_pos hg, if_pos hg]
        show (Log.rec timeC fileOk s.tempPriority s.tempString s).logs = _
        rw [rec_logs, boundedAppend_drop s.logs _ s.logLength h]
        simp
      · rw [if_neg hg, if_neg hg]
        exact hnil
  | setLog text p =>
      show (setLog text p s).logs = _
      rw [setLog_logs, boundedAppend_drop s.logs _ s.logLength h]
      simp [insertedBy]
  | getFullLogs => exact hnil
  | getLogs prios => exact hnil
  | getNewLogs => exact hnil
  | getVerbosity => exact hnil
  | setVerbosity p => exact hnil
  | logToFile activate => exact hnil

theorem step_length_le (op : Op) (s : LogState) (h : s.logs.length ≤ s.logLength) :
    (step op s).logs.length ≤ (step op s).logLength := by
  rw [step_logs op s h, step_logLength op s]
  simp only [List.length_drop, List.length_append]
  omega

theorem run_logs (ops : List Op) : ∀ (s : LogState), s.logs.length ≤ s.logLength →
    (run ops s).logs = (s.logs ++ allInserted ops s).drop
      ((s.logs.length + (allInserted ops s).length) - s.logLength) := by
  induction ops with
  | nil =>
      intro s h
      simp [run, allInserted, Nat.sub_eq_zero_of_le h]
  | cons op ops ih =>
      intro s h
      have hrun : run (op :: ops) s = run ops (step op s) := rfl
      have hAll : allInserted (op :: ops) s =
        insertedBy op s ++ allInserted ops (step op s) := rfl
      have h1 := step_logs op s h
      have hLL := step_logLength op s
      have hlen1 := step_length_le op s h
      have h2 := ih (step op s) hlen1
      rw [hrun, h2, hLL, h1, hAll]
      have hd : (s.logs.length + (insertedBy op s).length) - s.logLength ≤
          (s.logs ++ insertedBy op s).length := by
        simp only [List.length_append]
        omega
      rw [← List.drop_append_of_le_length hd, List.drop_drop, ← List.append_assoc]
      congr 1
      simp only [List.length_drop, List.length_append]
      omega

theorem run_logLength (ops : List Op) : ∀ (s : LogState),
    (run ops s).logLength = s.logLength := by
  induction ops with
  | nil => intro s; rfl
  | cons op ops ih =>
      intro s
      have hrun : run (op :: ops) s = run ops (step op s) := rfl
      rw [hrun, ih, step_logLength]

/-! ### The read cursor -/

theorem step_pointer (op : Op) (s : LogState)
    (h1 : 0 ≤ s.logPointer) (h2 : s.logPointer ≤ s.logs.length) :
    0 ≤ (step op s).logPointer ∧ (step op s).logPointer ≤ (step op s).logs.length := by
  have hpush : ∀ (text : String) (p : Priority),
      0 ≤ (setLog text p s).logPointer ∧
        (setLog text p s).logPointer ≤ (setLog text p s).logs.length := by
    intro text p
    rw [setLog_logs, setLog_logPointer]
    split
    · next hgt =>
        constructor
        · split <;> omega
        · have : ((s.logs ++ [(text, p)]).tail).length = s.logs.length := by
            simp [List.length_tail]
          rw [this]
          split <;> omega
    · next hle =>
        refine ⟨h1, ?_⟩
        simp only [List.length_append, List.length_cons, List.length_nil]
        omega
  have hrec : ∀ (timeC : String) (fileOk : Bool) (p : Priority) (body : String),
      0 ≤ (Log.rec timeC fileOk p body s).logPointer ∧
        (Log.rec timeC fileOk p body s).logPointer ≤
          (Log.rec timeC fileOk p body s).logs.length := by
    intro timeC fileOk p body
    rw [rec_logs, rec_logPointer]
    split
    · next hgt =>
        constructor
        · split <;> omega
        · have : ((s.logs ++ [(composeMsg timeC p body, p)]).tail).length
              = s.logs.length := by
            simp [List.length_tail]
          rw [this]
          split <;> omega
    · next hle =>
        refine ⟨h1, ?_⟩
        simp only [List.length_append, List.length_cons, List.length_nil]
        omega
  cases op with
  | record timeC fileOk p body => exact hrec timeC fileOk p body
  | streamAdd msg => exact ⟨h1, h2⟩
  | streamSetPriority p => exact ⟨h1, h2⟩
  | streamFlush timeC fileOk =>
      simp only [step, streamFlush]
      split
      · exact hrec timeC fileOk s.tempPriority s.tempString
      · exact ⟨h1, h2⟩
  | setLog text p => exact hpush text p
  | getFullLogs => exact ⟨h1, h2⟩
  | getLogs prios => exact ⟨h1, h2⟩
  | getNewLogs => exact ⟨Int.natCast_nonneg _, le_refl _⟩
  | getVerbosity => exact ⟨h1, h2⟩
  | setVerbosity p => exact ⟨h1, h2⟩
  | logToFile activate => exact ⟨h1, h2⟩

theorem run_pointer (ops : List Op) : ∀ (s : LogState),
    0 ≤ s.logPointer → s.logPointer ≤ s.logs.length →
    0 ≤ (run ops s).logPointer ∧ (run ops s).logPointer ≤ (run ops s).logs.length := by
  induction ops with
  | nil => intro s h1 h2; exact ⟨h1, h2⟩
  | cons op ops ih =>
      intro s h1 h2
      have hstep := step_pointer op s h1 h2
      exact ih (step op s) hstep.1 hstep.2

/-! ### Sequences of plain insertions -/

theorem runInserts_cons (e : String × Priority) (es : List (String × Priority))
    (s : LogState) :
    runInserts (e :: es) s = runInserts es (setLog e.1 e.2 s) := rfl

theorem runInserts_logs (es : List (String × Priority)) : ∀ (s : LogState),
    s.logs.length ≤ s.logLength →
    (runInserts es s).logs =
      (s.logs ++ es).drop ((s.logs.length + es.length) - s.logLength) ∧
    (runInserts es s).logLength = s.logLength := by
  induction es with
  | nil =>
      intro s h
      constructor
      · simp [runInserts, Nat.sub_eq_zero_of_le h]
      · rfl
  | cons e es ih =>
      intro s h
      have hlogs1 : (setLog e.1 e.2 s).logs =
          (s.logs ++ [e]).drop (s.logs.length + 1 - s.logLength) := by
        rw [setLog_logs, boundedAppend_drop s.logs _ s.logLength h]
      have hLL1 : (setLog e.1 e.2 s).logLength = s.logLength := (setLog_frame e.1 e.2 s).1
      have hlen1 : (setLog e.1 e.2 s).logs.length ≤ (setLog e.1 e.2 s).logLength := by
        rw [hlogs1, hLL1]
        simp only [List.length_drop, List.length_append, List.length_cons, List.length_nil]
        omega
      have h2 := ih (setLog e.1 e.2 s) hlen1
      rw [runInserts_cons]
      refine ⟨?_, by rw [h2.2, hLL1]⟩
      rw [h2.1, hLL1, hlogs1]
      have hd : s.logs.length + 1 - s.logLength ≤ (s.logs ++ [e]).length := by
        simp only [List.length_append, List.length_cons, List.length_nil]
        omega
      rw [← List.drop_append_of_le_length hd, List.drop_drop]
      rw [show (s.logs ++ [e]) ++ es = s.logs ++ (e :: es) by simp]
      congr 1
      simp only [List.length_drop, List.length_append, List.length_cons, List.length_nil]
      omega

theorem runInserts_pointer (es : List (String × Priority)) : ∀ (s : LogState),
    0 ≤ s.logPointer → s.logs.length ≤ s.logLength →
    (runInserts es s).logPointer =
      ((s.logPointer.toNat - ((s.logs.length + es.length) - s.logLength) : Nat) : Int) := by
  induction es with
  | nil =>
      intro s h1 h
      simp only [runInserts, List.foldl_nil, List.length_nil, Nat.add_zero,
        Nat.sub_eq_zero_of_le h, Nat.sub_zero]
      exact (Int.toNat_of_nonneg h1).symm
  | cons e es ih =>
      intro s h1 h
      have hlogs1 : (setLog e.1 e.2 s).logs =
          (s.logs ++ [e]).drop (s.logs.length + 1 - s.logLength) := by
        rw [setLog_logs, boundedAppend_drop s.logs _ s.logLength h]
      have hLL1 : (setLog e.1 e.2 s).logLength = s.logLength := (setLog_frame e.1 e.2 s).1
      have hlen1 : (setLog e.1 e.2 s).logs.length ≤ (setLog e.1 e.2 s).logLength := by
        rw [hlogs1, hLL1]
        simp only [List.length_drop, List.length_append, List.length_cons, List.length_nil]
        omega
      have hptr1 : (setLog e.1 e.2 s).logPointer =
          if (s.logs ++ [e]).length > s.logLength
          then (if s.logPointer > 0 then s.logPointer - 1 else s.logPointer)
          else s.logPointer := setLog_logPointer e.1 e.2 s
      have h1' : 0 ≤ (setLog e.1 e.2 s).logPointer := by
        rw [hptr1]
        split
        · split <;> omega
        · exact h1
      have h2 := ih (setLog e.1 e.2 s) h1' hlen1
      have hb : (setLog e.1 e.2 s).logPointer.toNat
          = s.logPointer.toNat - ((s.logs.length + 1) - s.logLength) := by
        rw [hptr1]
        simp only [List.length_append, List.length_cons, List.length_nil]
        split
        · next hgt =>
            split
            · next hpos => omega
            · next hpos => omega
        · next hle => omega
      have ha : (setLog e.1 e.2 s).logs.length
          = (s.logs.length + 1) - ((s.logs.length + 1) - s.logLength) := by
        rw [hlogs1]
        simp [List.length_drop, List.length_append]
      rw [runInserts_cons, h2, hLL1]
      congr 1
      rw [hb, ha]
      simp only [List.length_cons]
      omega

/-! ### Claim theorems -/

/-- C1: for every sequence of public operations from the initial state
(inserts via `operator()`, `operator<<(endl)` and `setLog` included), after
each operation the History length never exceeds the capacity 500, and the
History equals the most recent 500 of all inserted entries in insertion
order — i.e. an insertion beyond the cap evicts exactly the oldest entry. -/
theorem history_bounded (ops : List Op) :
    (run ops initState).logs.length ≤ 500 ∧
    (run ops initState).logs =
      (allInserted ops initState).drop ((allInserted ops initState).length - 500) := by
  have h0 : initState.logs.length ≤ initState.logLength := by
    simp [initState]
  have h := run_logs ops initState h0
  have h' : (run ops initState).logs =
      (allInserted ops initState).drop ((allInserted ops initState).length - 500) := by
    rw [h]
    norm_num [initState]
  refine ⟨?_, h'⟩
  rw [h']
  simp only [List.length_drop]
  omega

/-- C2: after every public operation from the initial state the read cursor
satisfies `0 ≤ cursor ≤ length(History)`; and on both insertion paths
(`setLog` and `rec`), when the insertion evicts the oldest entry the cursor
is decremented by one if positive and left at zero otherwise. -/
theorem cursor_invariant :
    (∀ ops : List Op, 0 ≤ (run ops initState).logPointer ∧
      (run ops initState).logPointer ≤ (run ops initState).logs.length) ∧
    (∀ (text : String) (p : Priority) (s : LogState),
      (setLog text p s).logPointer =
        if s.logs.length + 1 > s.logLength
        then (if s.logPointer > 0 then s.logPointer - 1 else s.logPointer)
        else s.logPointer) ∧
    (∀ (timeC : String) (fileOk : Bool) (p : Priority) (body : String) (s : LogState),
      (Log.rec timeC fileOk p body s).logPointer =
        if s.logs.length + 1 > s.logLength
        then (if s.logPointer > 0 then s.logPointer - 1 else s.logPointer)
        else s.logPointer) := by
  refine ⟨fun ops => run_pointer ops initState (by simp [initState]) (by simp [initState]),
    ?_, ?_⟩
  · intro text p s
    rw [setLog_logPointer]
    simp only [List.length_append, List.length_cons, List.length_nil, Nat.zero_add]
  · intro timeC fileOk p body s
    rw [rec_logPointer]
    simp only [List.length_append, List.length_cons, List.length_nil, Nat.zero_add]

/-- C3: `getNewLogs` returns exactly the History entries from the cursor to
the end, oldest-first, and sets the cursor to the History length; an
immediately repeated call returns nothing; and after any further sequence of
insertions, the next call returns exactly the retained still-undelivered
entries (the new entries minus the force-evicted oldest ones), with no
duplicate and no gap. -/
theorem getNewLogs_correct (s : LogState) (es : List (String × Priority))
    (h1 : s.logs.length ≤ s.logLength) (h2 : 0 ≤ s.logPointer) :
    (getNewLogs s).1 = s.logs.drop s.logPointer.toNat ∧
    (getNewLogs s).2 = { s with logPointer := (s.logs.length : Int) } ∧
    (getNewLogs ((getNewLogs s).2)).1 = [] ∧
    (getNewLogs (runInserts es (getNewLogs s).2)).1 =
      es.drop ((s.logs.length + es.length - s.logLength) - s.logs.length) := by
  refine ⟨by simp [getNewLogs, h2], rfl, ?_, ?_⟩
  · simp [getNewLogs]
  · have hA := (runInserts_logs es (getNewLogs s).2 h1).1
    have hP := runInserts_pointer es (getNewLogs s).2 (Int.natCast_nonneg _) h1
    simp only [getNewLogs] at hA hP ⊢
    rw [hP, hA]
    rw [if_pos (Int.natCast_nonneg _)]
    simp only [Int.toNat_natCast, List.drop_drop]
    rw [drop_append_ge s.logs es _ (by omega)]
    congr 1
    omega

/-- A state with capacity three, as in the spec's worked example. -/
def cap3 : LogState := { initState with logLength := 3 }

/-- The capacity-three state after inserting entries A and B. -/
def sAB : LogState := setLog "B" .MESSAGE (setLog "A" .MESSAGE cap3)

/-- The spec's worked example inserts C, D, E after delivering A, B. -/
def esCDE : List (String × Priority) :=
  [("C", Priority.MESSAGE), ("D", Priority.MESSAGE), ("E", Priority.MESSAGE)]

theorem getNewLogs_correct_witness :
    (getNewLogs sAB).1 = sAB.logs.drop sAB.logPointer.toNat ∧
    (getNewLogs sAB).2 = { sAB with logPointer := (sAB.logs.length : Int) } ∧
    (getNewLogs ((getNewLogs sAB).2)).1 = [] ∧
    (getNewLogs (runInserts esCDE (getNewLogs sAB).2)).1 =
      esCDE.drop ((sAB.logs.length + esCDE.length - sAB.logLength) - sAB.logs.length) :=
  getNewLogs_correct sAB esCDE (by decide) (by decide)

/-- C4: the stream terminator runs the common record algorithm on the
accumulated buffer exactly when the pending priority passes the verbosity
gate (a below-verbosity streamed message leaves the state — History
included — untouched apart from the buffer reset), always clears the buffer
and resets the pending priority to MESSAGE; and accumulating "foo" then
"bar" then flushing at the default (passing) priority yields exactly one
History entry whose body is "foobar". -/
theorem streamFlush_correct (timeC : String) (fileOk : Bool) (s : LogState) :
    (streamFlush timeC fileOk s).tempString = "" ∧
    (streamFlush timeC fileOk s).tempPriority = .MESSAGE ∧
    (s.tempPriority.pge s.verbosity = false →
      streamFlush timeC fileOk s = { s with tempString := "", tempPriority := .MESSAGE }) ∧
    (s.tempPriority.pge s.verbosity = true →
      streamFlush timeC fileOk s =
        { Log.rec timeC fileOk s.tempPriority s.tempString s with
            tempString := "", tempPriority := .MESSAGE }) ∧
    (streamFlush timeC true (streamAdd "bar" (streamAdd "foo" initState))).logs =
      [(composeMsg timeC .MESSAGE "foobar", .MESSAGE)] := by
  refine ⟨rfl, rfl, fun h => ?_, fun h => ?_, rfl⟩
  · simp only [streamFlush, h, Bool.false_eq_true, if_false]
  · simp only [streamFlush, h, if_true]

/-- A state whose pending stream priority (DEBUGGING) is below the default
verbosity (MESSAGE). -/
def sDebug : LogState := streamSetPriority Priority.DEBUGGING initState

theorem streamFlush_correct_witness :
    streamFlush "T" true sDebug =
      { sDebug with tempString := "", tempPriority := Priority.MESSAGE } :=
  (streamFlush_correct "T" true sDebug).2.2.1 (by decide)

/-- The most recent History entry after the common record algorithm is the
entry just composed (needs a positive capacity, as in the code's 500). -/
theorem rec_getLast (timeC : String) (fileOk : Bool) (p : Priority) (body : String)
    (s : LogState) (h : 0 < s.logLength) :
    (Log.rec timeC fileOk p body s).logs.getLast? = some (composeMsg timeC p body, p) := by
  rw [rec_logs]
  split
  · next hgt =>
      cases hL : s.logs with
      | nil =>
          rw [hL] at hgt
          simp at hgt
          omega
      | cons a l =>
          simp [List.getLast?_concat]
  · exact List.getLast?_concat _

/-- C5: the one-shot Record path appends the composed entry to History in
every case — `getFullLogs` contains it afterwards — while the console sink
receives it exactly when the priority passes the verbosity threshold. -/
theorem record_correct (timeC : String) (fileOk : Bool) (p : Priority) (body : String)
    (s : LogState) (h : 0 < s.logLength) :
    (record timeC fileOk p body s).logs.getLast? = some (composeMsg timeC p body, p) ∧
    (composeMsg timeC p body, p) ∈ (getFullLogs (record timeC fileOk p body s)).1 ∧
    (p.pge s.verbosity = false →
      (record timeC fileOk p body s).console = s.console) ∧
    (p.pge s.verbosity = true →
      (record timeC fileOk p body s).console = s.console ++ [composeMsg timeC p body]) := by
  have hlast := rec_getLast timeC fileOk p body s h
  refine ⟨hlast, ?_, fun hv => ?_, fun hv => ?_⟩
  · exact List.mem_of_mem_getLast? hlast
  · rw [show record timeC fileOk p body s = Log.rec timeC fileOk p body s from rfl,
      rec_console]
    simp [hv]
  · rw [show record timeC fileOk p body s = Log.rec timeC fileOk p body s from rfl,
      rec_console]
    simp [hv]

/-- A state with verbosity raised to WARNING. -/
def sWarnVerb : LogState := setVerbosity Priority.WARNING initState

theorem record_correct_witness :
    (record "T" true Priority.MESSAGE "hello" sWarnVerb).logs.getLast? =
      some (composeMsg "T" Priority.MESSAGE "hello", Priority.MESSAGE) ∧
    (composeMsg "T" Priority.MESSAGE "hello", Priority.MESSAGE) ∈
      (getFullLogs (record "T" true Priority.MESSAGE "hello" sWarnVerb)).1 ∧
    (Priority.pge Priority.MESSAGE sWarnVerb.verbosity = false →
      (record "T" true Priority.MESSAGE "hello" sWarnVerb).console = sWarnVerb.console) ∧
    (Priority.pge Priority.MESSAGE sWarnVerb.verbosity = true →
      (record "T" true Priority.MESSAGE "hello" sWarnVerb).console =
        sWarnVerb.console ++ [composeMsg "T" Priority.MESSAGE "hello"]) :=
  record_correct "T" true Priority.MESSAGE "hello" sWarnVerb (by decide)

/-- The inner loop of `getLogs` for a single entry: over a duplicate-free
nominated list it contributes the entry's text exactly when its priority is
nominated. -/
theorem flatMap_filter_single (e : String × Priority) :
    ∀ (prios : List Priority), prios.Nodup →
    prios.flatMap (fun p => if e.2 = p then [e.1] else []) =
      if e.2 ∈ prios then [e.1] else [] := by
  intro prios
  induction prios with
  | nil => intro _; simp
  | cons q qs ih =>
      intro hnd
      obtain ⟨hq, hnd'⟩ := List.nodup_cons.mp hnd
      simp only [List.flatMap_cons, ih hnd']
      by_cases he : e.2 = q
      · subst he
        simp [hq]
      · simp [he]

/-- C6: over a duplicate-free nominated set, `getLogs` returns exactly the
texts of the matching entries, in History order; over any nominated list,
every returned text comes from a matching entry and every matching entry's
text is returned. -/
theorem getLogs_correct :
    (∀ (prios : List Priority) (s : LogState), prios.Nodup →
      (getLogs prios s).1 =
        (s.logs.filter (fun e => decide (e.2 ∈ prios))).map Prod.fst) ∧
    (∀ (prios : List Priority) (s : LogState) (t : String),
      t ∈ (getLogs prios s).1 → ∃ e ∈ s.logs, e.2 ∈ prios ∧ e.1 = t) ∧
    (∀ (prios : List Priority) (s : LogState) (e : String × Priority),
      e ∈ s.logs → e.2 ∈ prios → e.1 ∈ (getLogs prios s).1) := by
  refine ⟨?_, ?_, ?_⟩
  · intro prios s hnd
    simp only [getLogs]
    induction s.logs with
    | nil => rfl
    | cons a l ih =>
        simp only [List.flatMap_cons, List.filter_cons, ih]
        rw [flatMap_filter_single a prios hnd]
        by_cases ha : a.2 ∈ prios
        · simp [ha]
        · simp [ha]
  · intro prios s t ht
    simp only [getLogs, List.mem_flatMap] at ht
    obtain ⟨e, he, ht⟩ := ht
    obtain ⟨p, hp, ht⟩ := ht
    by_cases hep : e.2 = p
    · rw [if_pos hep] at ht
      simp only [List.mem_singleton] at ht
      exact ⟨e, he, hep ▸ hp, ht.symm⟩
    · rw [if_neg hep] at ht
      exact absurd ht (List.not_mem_nil t)
  · intro prios s e he hp
    simp only [getLogs, List.mem_flatMap]
    refine ⟨e, he, e.2, hp, ?_⟩
    rw [if_pos rfl]
    exact List.mem_singleton_self _

/-- A History holding one entry of each of three priorities. -/
def sMixed : LogState :=
  { initState with logs := [("m", Priority.MESSAGE), ("w", Priority.WARNING),
      ("e", Priority.ERROR)] }

theorem getLogs_correct_witness :
    (getLogs [Priority.WARNING, Priority.ERROR] sMixed).1 =
      (sMixed.logs.filter
        (fun e => decide (e.2 ∈ [Priority.WARNING, Priority.ERROR]))).map Prod.fst :=
  getLogs_correct.1 [Priority.WARNING, Priority.ERROR] sMixed (by decide)

/-- C7: the common record algorithm stores the text
`<timestamp> / <tag> / <body>`, the four tags are the literal 9-character
bracketed strings of the source. -/
theorem tag_correct :
    (tagOf .MESSAGE = "[MESSAGE]" ∧ tagOf .DEBUGGING = " [DEBUG] " ∧
      tagOf .WARNING = "[WARNING]" ∧ tagOf .ERROR = " [ERROR] ") ∧
    ((tagOf .MESSAGE).length = 9 ∧ (tagOf .DEBUGGING).length = 9 ∧
      (tagOf .WARNING).length = 9 ∧ (tagOf .ERROR).length = 9) ∧
    (∀ (timeC : String) (fileOk : Bool) (p : Priority) (body : String) (s : LogState),
      0 < s.logLength →
      (Log.rec timeC fileOk p body s).logs.getLast? =
        some (timeC ++ " / " ++ tagOf p ++ " / " ++ body, p)) := by
  refine ⟨⟨rfl, rfl, rfl, rfl⟩, ⟨rfl, rfl, rfl, rfl⟩, ?_⟩
  intro timeC fileOk p body s h
  exact rec_getLast timeC fileOk p body s h

theorem tag_correct_witness :
    (Log.rec "T" false Priority.WARNING "w" initState).logs.getLast? =
      some ("T" ++ " / " ++ tagOf Priority.WARNING ++ " / " ++ "w", Priority.WARNING) :=
  tag_correct.2.2 "T" false Priority.WARNING "w" initState (by decide)

/-- C8: when the log file cannot be opened (`fileOk = false`) the record
operation writes nothing to the file sink, and the rest of the resulting
state — console output, History append, cursor adjustment, all other
members — is exactly what it would be on any other file outcome: the
failure is absorbed and the logging attempt never fails. -/
theorem rec_fileFailure (timeC : String) (p : Priority) (body : String)
    (fileOk : Bool) (s : LogState) :
    (Log.rec timeC false p body s).fileSink = s.fileSink ∧
    Log.rec timeC false p body s =
      { Log.rec timeC fileOk p body s with fileSink := s.fileSink } := by
  constructor
  · rw [rec_fileSink]
    simp
  · simp only [Log.rec, Bool.and_false, Bool.false_eq_true, if_false]
    by_cases hc : (s.logs ++ [(composeMsg timeC p body, p)]).length > s.logLength
    · simp only [hc, if_true]
    · simp only [hc, if_false]

/-- C10: `getFullLogs` and `getLogs` leave the facility state — History,
cursor, verbosity, sink flag, streaming buffer — unchanged, so they never
affect a subsequent `getNewLogs`. -/
theorem readers_frame (prios : List Priority) (s : LogState) :
    (getFullLogs s).2 = s ∧ (getLogs prios s).2 = s ∧
    (getNewLogs ((getFullLogs s).2)).1 = (getNewLogs s).1 ∧
    (getNewLogs ((getLogs prios s).2)).1 = (getNewLogs s).1 :=
  ⟨rfl, rfl, rfl, rfl⟩

/-- The public member functions of `class Log` (log.h), excluding the static
singleton accessor `get`. -/
inductive PublicOp where
  | opCall
  | streamInsert
  | streamInsertValue
  | streamAction
  | streamPriority
  | getFullLogs
  | getLogs
  | getNewLogs
  | getVerbosity
  | logToFile
  | setVerbosity
  | setLog
deriving DecidableEq

/-- Whether the body of the member function constructs a scoped
`std::lock_guard<Spinlock>` on `_mutex`, transcribed from log.h:
`operator()` (opCall), the four `operator<<` overloads (streamInsert for the
generic one, streamInsertValue for the `Value` one, streamAction for
`Action`, streamPriority for `Priority`), `getLogs`, `getNewLogs` and
`setLog` do; `getFullLogs`, `getVerbosity`, `logToFile` and `setVerbosity`
read or write the members with no lock at all. -/
def acquiresLock : PublicOp → Bool
  | .opCall => true
  | .streamInsert => true
  | .streamInsertValue => true
  | .streamAction => true
  | .streamPriority => true
  | .getFullLogs => false
  | .getLogs => true
  | .getNewLogs => true
  | .getVerbosity => false
  | .logToFile => false
  | .setVerbosity => false
  | .setLog => true

/-- C9 counterexample: `Log::getFullLogs` is a public operation whose body
takes no lock, refuting the claim that every public operation acquires the
shared spin lock. -/
theorem getFullLogs_no_lock : acquiresLock PublicOp.getFullLogs = false := rfl

/-- C9 amended: the compound operations — `operator()`, the four stream
`operator<<` overloads, `getLogs`, `getNewLogs` and `setLog` — each hold the
shared spin lock for their entire body via a scoped guard (released on
return); the four plain accessors `getFullLogs`, `getVerbosity`,
`logToFile` and `setVerbosity` touch the members without acquiring the
lock. -/
theorem lock_discipline (op : PublicOp) :
    acquiresLock op = false ↔
      op ∈ [PublicOp.getFullLogs, PublicOp.getVerbosity,
            PublicOp.logToFile, PublicOp.setVerbosity] := by
  cases op <;> simp [acquiresLock]

end Splash
